import Mathlib

/-!
# Verification of the DUNE `Tutorial/PlanVisit` task

Shallow embedding of the route-planning task found in this repository
(`src/unnamed/part_000`, henceforth "the task", and the earlier variant
`src/src/Tutorial/PlanVisit/Task.cpp`, henceforth "the Task.cpp variant").

Modelling conventions:
* C++ `double` is idealised as an element of a linear ordered ring `R`
  (instantiated with `ℤ` in concrete evaluations; the only non-ring
  literal of the source, the cruise speed `1.6`, is kept as the exact
  rational it denotes).  `DBL_MAX`, used only as the seed of the running
  minimum in `TSP`, is idealised as `⊤ : WithTop R`, reflecting that
  every finite path weight compares strictly below it.
* The geodesic range computation `Coordinates::WGS84::getNEBearingAndRange`
  and the degree→radian conversion `Angles::radians` live elsewhere in the
  DUNE tree (outside `src/`); per the spec they are external numeric
  collaborators, so they are passed in as abstract function parameters
  `range : R → R → R → R → R` (lat₁ lon₁ lat₂ lon₂ ↦ range) and
  `rad : R → R`.
* `std::vector<double>` indexing is modelled with `List.getD _ _ 0`; the
  claims that concern themselves with bounds are settled over explicit
  access lists (`weightsCoordAccesses` &c.).
* The do/while loop around `std::next_permutation`, started on the sorted
  list of distinct vertex labels, visits exactly the permutations of that
  list in lexicographic order; it is embedded as a fold over `lexPerms`,
  which enumerates the permutations in that same order.
* `size_t` subtraction (`indices.size() - 1`) is modelled by `usizeSub1`,
  an explicit `% 2 ^ 64` wrap.
-/

namespace PlanVisit

/-! ## Cycle cost

Mirrors the cost accumulation of `TSP` (part_000 lines 256-264):
`k = 0; for v in indices: cost += w[k][v]; k = v; cost += w[k][0]`. -/

variable {R : Type} [LinearOrderedRing R]

/-- Cost accumulation of `TSP` starting from current vertex `k`. -/
def cycleCostAux (w : ℕ → ℕ → R) : ℕ → List ℕ → R
  | k, [] => w k 0
  | k, v :: rest => w k v + cycleCostAux w v rest

/-- Cycle cost of a visiting order: `w 0 v₁ + w v₁ v₂ + ⋯ + w vₙ 0`. -/
def cycleCost (w : ℕ → ℕ → R) (route : List ℕ) : R :=
  cycleCostAux w 0 route

/-! ## Lexicographic permutation enumeration

`std::next_permutation` started from a sorted, duplicate-free sequence
enumerates all permutations of that sequence in lexicographic order.
`lexPerms` produces that enumeration directly: it picks each possible head
in the order the elements occur in the (sorted) list and recurses on the
remainder. -/

/-- All ways of selecting one element out of a list: the selected element
paired with the remaining list, in order of selection position. -/
def selections {α : Type} : List α → List (α × List α)
  | [] => []
  | x :: xs => (x, xs) :: (selections xs).map (fun p => (p.1, x :: p.2))

/-- One layer of the permutation enumeration: for each selection, prepend
the selected head to every permutation (computed by `f`) of the rest. -/
def permsBlocks {α : Type} (f : List α → List (List α)) :
    List (α × List α) → List (List α)
  | [] => []
  | p :: ps => ((f p.2).map (fun t => p.1 :: t)) ++ permsBlocks f ps

/-- Fuelled permutation enumeration; the fuel is always the list length. -/
def lexPermsAux {α : Type} : ℕ → List α → List (List α)
  | 0, _ => [[]]
  | n + 1, l => permsBlocks (lexPermsAux n) (selections l)

/-- All permutations of `l` in lexicographic order (for sorted `l`). -/
def lexPerms {α : Type} (l : List α) : List (List α) :=
  lexPermsAux l.length l

/-! ## The solver `TSP` (part_000 lines 239-284) -/

/-- The vertex labels pushed by the loop
`for (i = 0; i < size; i += 2) indices.push_back(i/2 + 1)`. -/
def vertexIndices (len : ℕ) : List ℕ :=
  ((List.range len).filter (fun i => i % 2 == 0)).map (fun i => i / 2 + 1)

/-- One iteration of the do/while body of `TSP`: keep the candidate when
its path weight is strictly below the running minimum. -/
def tspStep (w : ℕ → ℕ → R) (acc : WithTop R × List ℕ) (perm : List ℕ) :
    WithTop R × List ℕ :=
  if ((cycleCost w perm : R) : WithTop R) < acc.1
  then (((cycleCost w perm : R) : WithTop R), perm) else acc

/-- The full do/while loop of `TSP`: fold over all permutations of the
vertex labels in the order `next_permutation` visits them, starting from
`min_path = DBL_MAX` (idealised `⊤`) and `best_indices = {}`. -/
def tspScan (w : ℕ → ℕ → R) (perms : List (List ℕ)) : WithTop R × List ℕ :=
  perms.foldl (tspStep w) (⊤, [])

/-- The best visiting order in vertex labels (1-based), i.e. the value of
`best_indices` just before the final `std::transform`. -/
def TSPbest (coords : List R) (w : ℕ → ℕ → R) : List ℕ :=
  (tspScan w (lexPerms (vertexIndices coords.length))).2

/-- The value returned by `TSP`, after `std::transform` subtracts 1 from each
vertex label (part_000 lines 277-283). -/
def TSP (coords : List R) (w : ℕ → ℕ → R) : List ℕ :=
  (TSPbest coords w).map (fun e => e - 1)

/-! ## The weight matrix builder `calculateWeights` (part_000 lines 201-234)

The `(n+1)×(n+1)` zero-initialised `std::vector<std::vector<double>>` is
modelled as a total function `ℕ → ℕ → R` that is `0` everywhere initially;
each C++ element assignment becomes a pointwise functional update `wupd`. -/

/-- Single matrix element assignment `m[a][b] = x`. -/
def wupd (m : ℕ → ℕ → R) (a b : ℕ) (x : R) : ℕ → ℕ → R :=
  fun i j => if i = a ∧ j = b then x else m i j

/-- Index sequence of the C++ loop `for (j = start; j < len; j += 2)` when
`start` is even: the even numbers in `[start, len)`, in order. -/
def evensFrom (len start : ℕ) : List ℕ :=
  (List.range len).filter (fun j => start ≤ j && j % 2 == 0)

/-- The weight matrix builder of part_000: depot row/column at index 0,
waypoint `i/2` at row/column `i/2 + 1`. -/
def calculateWeights (range : R → R → R → R → R) (alat alon : R)
    (coords : List R) : ℕ → ℕ → R :=
  (evensFrom coords.length 0).foldl (fun m i =>
    let r := range alat alon (coords.getD i 0) (coords.getD (i + 1) 0)
    let m := wupd (wupd m 0 (i / 2 + 1) r) (i / 2 + 1) 0 r
    (evensFrom coords.length i).foldl (fun m j =>
      if i = j then wupd m (i / 2 + 1) (j / 2 + 1) 0
      else
        let r2 := range (coords.getD i 0) (coords.getD (i + 1) 0)
          (coords.getD j 0) (coords.getD (j + 1) 0)
        wupd (wupd m (i / 2 + 1) (j / 2 + 1) r2) (j / 2 + 1) (i / 2 + 1) r2) m)
    (fun _ _ => 0)

/-- The weight matrix builder of the Task.cpp variant (lines 176-200):
writes into a caller-supplied matrix `weights0`, placing the depot ranges
at row/column `i/2` and the pairwise ranges at `(i/2 + 1, j/2)`. -/
def calculateWeightsCpp (range : R → R → R → R → R) (alat alon : R)
    (coords : List R) (weights0 : ℕ → ℕ → R) : ℕ → ℕ → R :=
  (evensFrom coords.length 0).foldl (fun m i =>
    let r := range alat alon (coords.getD i 0) (coords.getD (i + 1) 0)
    let m := wupd (wupd m 0 (i / 2) r) (i / 2) 0 r
    (evensFrom coords.length i).foldl (fun m j =>
      if i = j then wupd m (i / 2) (j / 2) 0
      else
        let r2 := range (coords.getD i 0) (coords.getD (i + 1) 0)
          (coords.getD j 0) (coords.getD (j + 1) 0)
        wupd (wupd m (i / 2 + 1) (j / 2) r2) (j / 2) (i / 2 + 1) r2) m)
    weights0

/-! ## Element accesses performed by `calculateWeights` and `createPlan`

For the bounds claim the indices touched by each `std::vector` subscript
are collected, in execution order, into explicit access lists. -/

/-- Indices used to subscript `m_args.points_to_visit` inside
`calculateWeights` (part_000 lines 210-231). -/
def weightsCoordAccesses (len : ℕ) : List ℕ :=
  (evensFrom len 0).flatMap (fun i =>
    [i, i + 1] ++ (evensFrom len i).flatMap (fun j =>
      if i = j then [] else [i, i + 1, j, j + 1]))

/-- Row/column pairs used to subscript `weights` inside `calculateWeights`
(part_000 lines 210-231). -/
def weightsMatrixAccesses (len : ℕ) : List (ℕ × ℕ) :=
  (evensFrom len 0).flatMap (fun i =>
    [(0, i / 2 + 1), (i / 2 + 1, 0)] ++ (evensFrom len i).flatMap (fun j =>
      if i = j then [(i / 2 + 1, j / 2 + 1)]
      else [(i / 2 + 1, j / 2 + 1), (j / 2 + 1, i / 2 + 1)]))

/-- Indices used to subscript `m_args.points_to_visit` inside `createPlan`
(part_000 lines 293-296). -/
def planCoordAccesses (indices : List ℕ) : List ℕ :=
  indices.flatMap (fun v => [v * 2, v * 2 + 1])

/-! ## The plan assembler `createPlan` (part_000 lines 289-353) -/

/-- Payload of a `Goto` maneuver (`IMC::Goto` fields set by the task).  The
coordinates share the idealisation `R` of `double`; the speed and depth
are the fixed literal constants `1.6` and `0` of the source, kept as the
exact rationals they denote.  The constant unit enums are omitted. -/
structure Goto (R : Type) where
  lat : R
  lon : R
  speed : ℚ
  z : ℚ
deriving DecidableEq

/-- Mirror of `IMC::PlanManeuver` as populated by the task. -/
structure PlanManeuver (R : Type) where
  maneuver_id : String
  data : Goto R
deriving DecidableEq

/-- Mirror of `IMC::PlanTransition` as populated by the task. -/
structure PlanTransition where
  source_man : String
  dest_man : String
  conditions : String
deriving DecidableEq

/-- Mirror of the `IMC::PlanSpecification` fields used by the task. -/
structure PlanSpecification (R : Type) where
  plan_id : String
  description : String
  start_man_id : String
  maneuvers : List (PlanManeuver R)
  transitions : List PlanTransition
deriving DecidableEq

/-- The maneuver identifier written by `man_name << "Goto" << i`. -/
def gotoName (i : ℕ) : String :=
  "Goto" ++ Nat.repr i

/-- Wrapping subtraction of 1 on `size_t` (`indices.size() - 1`). -/
def usizeSub1 (n : ℕ) : ℕ :=
  (n + (2 ^ 64 - 1)) % 2 ^ 64

/-- One iteration `i` of the route loop of `createPlan` (part_000 lines
293-327): appends one `Goto` maneuver for route entry `i`, records the
first maneuver as the plan's start, and appends a completion-gated
transition from the previous maneuver for every later one. -/
def planStep (coords : List R) (indices : List ℕ)
    (pl : PlanSpecification R) (i : ℕ) : PlanSpecification R :=
  let lat := coords.getD (indices.getD i 0 * 2) 0
  let lon := coords.getD (indices.getD i 0 * 2 + 1) 0
  let pman : PlanManeuver R := ⟨gotoName i, ⟨lat, lon, 8 / 5, 0⟩⟩
  let pl2 := { pl with maneuvers := pl.maneuvers ++ [pman] }
  if i = 0 then { pl2 with start_man_id := pman.maneuver_id }
  else { pl2 with transitions :=
    pl2.transitions ++ [⟨gotoName (i - 1), gotoName i, "ManeuverIsDone"⟩] }

/-- The full route loop of `createPlan`. -/
def planBody (coords : List R) (indices : List ℕ)
    (plan : PlanSpecification R) : PlanSpecification R :=
  (List.range indices.length).foldl (planStep coords indices) plan

/-- The function `createPlan`: the loop above followed by the unconditional closing
maneuver back to the vehicle position and its incoming transition
(part_000 lines 329-352).  The transition's source id is computed with
`size_t` arithmetic, so an empty route yields `Goto` + (2^64 - 1). -/
def createPlan (coords : List R) (alat alon : R) (indices : List ℕ)
    (plan : PlanSpecification R) : PlanSpecification R :=
  let pl := planBody coords indices plan
  let pman : PlanManeuver R := ⟨gotoName indices.length, ⟨alat, alon, 8 / 5, 0⟩⟩
  let pl := { pl with maneuvers := pl.maneuvers ++ [pman] }
  { pl with transitions := pl.transitions ++
      [⟨gotoName (usizeSub1 indices.length), gotoName indices.length, "ManeuverIsDone"⟩] }

/-! ## The task's event loop (part_000 lines 48-390)

The task is single-threaded: the host runtime delivers parameter updates,
activation/deactivation requests and bus messages, and `onMain` polls once
per second, running the planning block at most once.  This is embedded as
a state machine: one state record mirroring the member variables, one
event per handler, and a step function mirroring the handler bodies.  Two
instrumentation counters (`matrices_built`, `plans_dispatched`) record how
often the planning block of `onMain` ran `calculateWeights` and
`sendPlan`; they correspond to no C++ variable and are only ever
incremented together with the modelled effects. -/

/-- Numeric value of `IMC::VehicleState::VS_SERVICE` (0). -/
def VS_SERVICE : ℕ := 0

/-- Numeric value of `IMC::VehicleState::VS_BOOT` (5). -/
def VS_BOOT : ℕ := 5

/-- The member variables of `struct Task` (part_000 lines 50-69). -/
structure TaskState (R : Type) where
  points_to_visit : List R
  vstate : ℕ
  in_mission : Bool
  progress : R
  auv_lat : R
  auv_lon : R
  ptv_ok : Bool
  plan_sent : Bool
  plan_to_run : PlanSpecification R
  active : Bool
  matrices_built : ℕ
  plans_dispatched : ℕ
deriving DecidableEq

/-- The constructor's initialisation (part_000 lines 74-100).  `m_auv_lat`,
`m_auv_lon` and `m_progress` are uninitialised in the C++ constructor and
are modelled as 0; no claim depends on their initial values.  The task
starts inactive. -/
def initState : TaskState R :=
  { points_to_visit := []
    vstate := VS_BOOT
    in_mission := false
    progress := 0
    auv_lat := 0
    auv_lon := 0
    ptv_ok := false
    plan_sent := false
    plan_to_run :=
      { plan_id := "PlanVisit"
        description :=
          "Visiting given points in ini file in optimal order based on range"
        start_man_id := ""
        maneuvers := []
        transitions := [] }
    active := false
    matrices_built := 0
    plans_dispatched := 0 }

/-- Events delivered to the task: one per handler of `struct Task`, plus
`tick` for one iteration of the `onMain` polling loop. -/
inductive Event (R : Type) where
  | updateParameters (pts : List R)
  | activate
  | deactivate
  | vehicleState (op_mode : ℕ)
  | estimatedState (lat lon : R)
  | planControlState (executing success : Bool) (progress : R)
  | tick

/-- Modelled from the spec: the host runtime's activation transition is not
under `src/` (it lives in `DUNE::Tasks::Task`); per the spec an odd-length
waypoint list "disables the capability, refuses activation", so activation
succeeds exactly when `m_PTV_ok` holds (`onActivation`, part_000 lines
152-164, only reports status). -/
def stepActivate (s : TaskState R) : TaskState R :=
  if s.ptv_ok then { s with active := true } else s

/-- One event step of the task.  Handler bodies are taken from part_000:
`onUpdateParameters` (lines 102-120, with the host runtime storing the raw
parameter value first), the three `consume` overloads (lines 173-196,
where `requestDeactivation` clears `active`), deactivation, and one
iteration of the `onMain` loop body (lines 369-390), which runs
`calculateWeights`/`TSP`/`createPlan`/`sendPlan` when
`isActive() & !m_plan_sent & (m_vstate == VS_SERVICE)`. -/
def step (range : R → R → R → R → R) (rad : R → R)
    (s : TaskState R) : Event R → TaskState R
  | .updateParameters pts =>
    if pts.length % 2 ≠ 0 then
      { s with points_to_visit := pts, ptv_ok := false }
    else
      { s with points_to_visit := pts.map rad, ptv_ok := true }
  | .activate => stepActivate s
  | .deactivate => { s with active := false }
  | .vehicleState op_mode => { s with vstate := op_mode }
  | .estimatedState lat lon => { s with auv_lat := lat, auv_lon := lon }
  | .planControlState executing success progress =>
    let s := { s with in_mission := executing, progress := progress }
    if executing && success then { s with active := false } else s
  | .tick =>
    if s.active && !s.plan_sent && s.vstate == VS_SERVICE then
      let weights := calculateWeights range s.auv_lat s.auv_lon s.points_to_visit
      let index := TSP s.points_to_visit weights
      let plan := createPlan s.points_to_visit s.auv_lat s.auv_lon index s.plan_to_run
      { s with plan_to_run := plan
               plan_sent := true
               matrices_built := s.matrices_built + 1
               plans_dispatched := s.plans_dispatched + 1 }
    else s

/-- Run the task over a list of events. -/
def run (range : R → R → R → R → R) (rad : R → R)
    (s : TaskState R) (es : List (Event R)) : TaskState R :=
  es.foldl (step range rad) s

/-- The weight matrix invariant of the spec: symmetric, zero diagonal,
all entries non-negative. -/
def WInv (m : ℕ → ℕ → R) : Prop :=
  (∀ i j, m i j = m j i) ∧ (∀ i, m i i = 0) ∧ (∀ i j, 0 ≤ m i j)

/-! ## Lemmas: the permutation enumeration -/

theorem mem_selections_perm {α : Type} {l : List α} {p : α × List α}
    (h : p ∈ selections l) : List.Perm (p.1 :: p.2) l := by
  induction l generalizing p with
  | nil => simp [selections] at h
  | cons x xs ih =>
    simp only [selections, List.mem_cons, List.mem_map] at h
    rcases h with rfl | ⟨q, hq, rfl⟩
    · exact List.Perm.refl _
    · exact (List.Perm.swap x q.1 q.2).trans ((ih hq).cons x)

theorem self_erase_mem_selections {α : Type} [DecidableEq α] {l : List α} {x : α}
    (h : x ∈ l) : (x, l.erase x) ∈ selections l := by
  induction l with
  | nil => simp at h
  | cons y ys ih =>
    by_cases hxy : x = y
    · subst hxy
      simp [selections]
    · have hx : x ∈ ys := by
        rcases List.mem_cons.mp h with h1 | h1
        · exact absurd h1 hxy
        · exact h1
      simp only [selections, List.mem_cons, List.mem_map]
      refine .inr ⟨(x, ys.erase x), ih hx, ?_⟩
      rw [List.erase_cons_tail (by simpa using Ne.symm hxy)]

theorem selections_map_fst {α : Type} (l : List α) :
    (selections l).map Prod.fst = l := by
  induction l with
  | nil => rfl
  | cons x xs ih =>
    simp only [selections, List.map_cons, List.map_map]
    congr 1

theorem selections_snd_sublist {α : Type} {l : List α} {p : α × List α}
    (h : p ∈ selections l) : p.2.Sublist l := by
  induction l generalizing p with
  | nil => simp [selections] at h
  | cons x xs ih =>
    simp only [selections, List.mem_cons, List.mem_map] at h
    rcases h with rfl | ⟨q, hq, rfl⟩
    · exact List.sublist_cons_self x xs
    · exact (ih hq).cons₂ x

theorem mem_permsBlocks {α : Type} {f : List α → List (List α)}
    {ps : List (α × List α)} {q : List α} :
    q ∈ permsBlocks f ps ↔ ∃ p ∈ ps, ∃ t ∈ f p.2, q = p.1 :: t := by
  induction ps with
  | nil => simp [permsBlocks]
  | cons p ps ih =>
    simp only [permsBlocks, List.mem_append, List.mem_map, ih, List.mem_cons]
    constructor
    · rintro (⟨t, ht, rfl⟩ | ⟨r, hr, t, ht, rfl⟩)
      · exact ⟨p, .inl rfl, t, ht, rfl⟩
      · exact ⟨r, .inr hr, t, ht, rfl⟩
    · rintro ⟨r, hr | hr, t, ht, rfl⟩
      · subst hr
        exact .inl ⟨t, ht, rfl⟩
      · exact .inr ⟨r, hr, t, ht, rfl⟩

theorem mem_lexPermsAux {α : Type} [DecidableEq α] :
    ∀ (n : ℕ) (l : List α), l.length = n → ∀ q : List α,
      (q ∈ lexPermsAux n l ↔ List.Perm q l) := by
  intro n
  induction n with
  | zero =>
    intro l hl q
    rw [List.length_eq_zero] at hl
    subst hl
    simp [lexPermsAux, List.perm_nil]
  | succ n ih =>
    intro l hl q
    simp only [lexPermsAux, mem_permsBlocks]
    constructor
    · rintro ⟨p, hp, t, ht, rfl⟩
      have hperm := mem_selections_perm hp
      have hlen : p.2.length = n := by
        have := hperm.length_eq
        simp only [List.length_cons, hl] at this
        omega
      exact (((ih p.2 hlen t).mp ht).cons p.1).trans hperm
    · intro hq
      cases q with
      | nil =>
        have := hq.length_eq
        simp [hl] at this
      | cons x t =>
        have hx : x ∈ l := hq.subset (List.mem_cons_self x t)
        refine ⟨(x, l.erase x), self_erase_mem_selections hx, t, ?_, rfl⟩
        have ht : List.Perm t (l.erase x) := (List.cons_perm_iff_perm_erase.mp hq).2
        have hlen : (l.erase x).length = n := by
          rw [List.length_erase_of_mem hx, hl]
          rfl
        exact (ih _ hlen t).mpr ht

theorem mem_lexPerms {α : Type} [DecidableEq α] {l q : List α} :
    q ∈ lexPerms l ↔ List.Perm q l :=
  mem_lexPermsAux l.length l rfl q

theorem permsBlocks_pairwise_lex {f : List ℕ → List (List ℕ)}
    {ps : List (ℕ × List ℕ)}
    (hfst : (ps.map Prod.fst).Pairwise (· < ·))
    (hblk : ∀ p ∈ ps, (f p.2).Pairwise (List.Lex (· < ·))) :
    (permsBlocks f ps).Pairwise (List.Lex (· < ·)) := by
  induction ps with
  | nil => simp [permsBlocks]
  | cons p ps ih =>
    simp only [permsBlocks]
    rw [List.pairwise_append]
    refine ⟨?_, ?_, ?_⟩
    · rw [List.pairwise_map]
      exact (hblk p (List.mem_cons_self p ps)).imp (fun h => List.Lex.cons h)
    · refine ih ?_ (fun q hq => hblk q (List.mem_cons_of_mem p hq))
      simp only [List.map_cons] at hfst
      exact hfst.of_cons
    · intro a ha b hb
      rcases List.mem_map.mp ha with ⟨t, _, rfl⟩
      rcases mem_permsBlocks.mp hb with ⟨r, hr, u, _, rfl⟩
      have hlt : p.1 < r.1 := by
        simp only [List.map_cons, List.pairwise_cons] at hfst
        exact hfst.1 r.1 (List.mem_map_of_mem Prod.fst hr)
      exact List.Lex.rel hlt

theorem lexPermsAux_pairwise_lex :
    ∀ (n : ℕ) (l : List ℕ), l.length = n → l.Pairwise (· < ·) →
      (lexPermsAux n l).Pairwise (List.Lex (· < ·)) := by
  intro n
  induction n with
  | zero =>
    intro l _ _
    simp [lexPermsAux]
  | succ n ih =>
    intro l hl hsort
    refine permsBlocks_pairwise_lex ?_ ?_
    · rw [selections_map_fst]
      exact hsort
    · intro p hp
      have hlen : p.2.length = n := by
        have := (mem_selections_perm hp).length_eq
        simp only [List.length_cons, hl] at this
        omega
      exact ih p.2 hlen (hsort.sublist (selections_snd_sublist hp))

theorem lexPerms_pairwise_lex {l : List ℕ} (hsort : l.Pairwise (· < ·)) :
    (lexPerms l).Pairwise (List.Lex (· < ·)) :=
  lexPermsAux_pairwise_lex l.length l rfl hsort

/-! ## Lemmas: the minimisation loop of `TSP` -/

theorem tspFold_fst_le (w : ℕ → ℕ → R) :
    ∀ (perms : List (List ℕ)) (acc : WithTop R × List ℕ),
      (perms.foldl (tspStep w) acc).1 ≤ acc.1 ∧
      ∀ p ∈ perms,
        (perms.foldl (tspStep w) acc).1 ≤ ((cycleCost w p : R) : WithTop R) := by
  intro perms
  induction perms with
  | nil =>
    intro acc
    exact ⟨le_refl _, by simp⟩
  | cons p ps ih =>
    intro acc
    simp only [List.foldl_cons]
    have key : (tspStep w acc p).1 ≤ acc.1 ∧
        (tspStep w acc p).1 ≤ ((cycleCost w p : R) : WithTop R) := by
      unfold tspStep
      split
      · exact ⟨le_of_lt (by assumption), le_refl _⟩
      · exact ⟨le_refl _, le_of_not_lt (by assumption)⟩
    obtain ⟨h1, h2⟩ := ih (tspStep w acc p)
    refine ⟨h1.trans key.1, ?_⟩
    intro q hq
    rcases List.mem_cons.mp hq with rfl | hq1
    · exact h1.trans key.2
    · exact h2 q hq1

theorem tspFold_attains (w : ℕ → ℕ → R) :
    ∀ (perms : List (List ℕ)) (acc : WithTop R × List ℕ),
      perms.foldl (tspStep w) acc = acc ∨
      ((perms.foldl (tspStep w) acc).2 ∈ perms ∧
       (perms.foldl (tspStep w) acc).1 =
         ((cycleCost w (perms.foldl (tspStep w) acc).2 : R) : WithTop R)) := by
  intro perms
  induction perms with
  | nil =>
    intro acc
    exact .inl rfl
  | cons p ps ih =>
    intro acc
    simp only [List.foldl_cons]
    rcases ih (tspStep w acc p) with h | h
    · rw [h]
      unfold tspStep
      split
      · exact .inr ⟨List.mem_cons_self _ _, rfl⟩
      · exact .inl rfl
    · exact .inr ⟨List.mem_cons_of_mem p h.1, h.2⟩

theorem tspFold_snd_eq_or_lt (w : ℕ → ℕ → R) :
    ∀ (perms : List (List ℕ)) (acc : WithTop R × List ℕ),
      (perms.foldl (tspStep w) acc).2 = acc.2 ∨
      (perms.foldl (tspStep w) acc).1 < acc.1 := by
  intro perms
  induction perms with
  | nil =>
    intro acc
    exact .inl rfl
  | cons p ps ih =>
    intro acc
    simp only [List.foldl_cons]
    by_cases hlt : ((cycleCost w p : R) : WithTop R) < acc.1
    · right
      have hstep : tspStep w acc p = (((cycleCost w p : R) : WithTop R), p) := by
        unfold tspStep
        exact if_pos hlt
      calc (ps.foldl (tspStep w) (tspStep w acc p)).1
          ≤ (tspStep w acc p).1 := (tspFold_fst_le w ps _).1
        _ = ((cycleCost w p : R) : WithTop R) := by rw [hstep]
        _ < acc.1 := hlt
    · have hstep : tspStep w acc p = acc := by
        unfold tspStep
        exact if_neg hlt
      rw [hstep]
      exact ih acc

theorem tspFold_first_min (w : ℕ → ℕ → R) :
    ∀ (perms : List (List ℕ)) (acc : WithTop R × List ℕ),
      perms.Pairwise (List.Lex (· < ·)) →
      (acc = (⊤, []) ∨
        (acc.1 = ((cycleCost w acc.2 : R) : WithTop R) ∧
         ∀ q ∈ perms, List.Lex (· < ·) acc.2 q)) →
      ∀ q ∈ perms,
        ((cycleCost w q : R) : WithTop R) = (perms.foldl (tspStep w) acc).1 →
        (perms.foldl (tspStep w) acc).2 = q ∨
          List.Lex (· < ·) (perms.foldl (tspStep w) acc).2 q := by
  intro perms
  induction perms with
  | nil =>
    intro acc _ _ q hq
    simp at hq
  | cons p ps ih =>
    intro acc hsort hacc q hq hcost
    simp only [List.foldl_cons] at hcost ⊢
    by_cases hlt : ((cycleCost w p : R) : WithTop R) < acc.1
    · have hstep : tspStep w acc p = (((cycleCost w p : R) : WithTop R), p) := by
        unfold tspStep
        exact if_pos hlt
      rcases List.mem_cons.mp hq with rfl | hq1
      · rw [hstep] at hcost ⊢
        rcases tspFold_snd_eq_or_lt w ps (((cycleCost w q : R) : WithTop R), q) with h | h
        · exact .inl h
        · exfalso
          rw [← hcost] at h
          exact lt_irrefl _ h
      · refine ih (tspStep w acc p) hsort.of_cons (.inr ⟨?_, ?_⟩) q hq1 hcost
        · rw [hstep]
        · intro r hr
          rw [hstep]
          exact (List.pairwise_cons.mp hsort).1 r hr
    · have hstep : tspStep w acc p = acc := by
        unfold tspStep
        exact if_neg hlt
      rw [hstep] at hcost ⊢
      rcases List.mem_cons.mp hq with rfl | hq1
      · rcases hacc with rfl | ⟨_, hlex⟩
        · exact absurd (WithTop.coe_lt_top _) hlt
        · rcases tspFold_snd_eq_or_lt w ps acc with h | h
          · rw [h]
            exact .inr (hlex q (List.mem_cons_self _ _))
          · exfalso
            rw [← hcost] at h
            exact hlt h
      · refine ih acc hsort.of_cons ?_ q hq1 hcost
        rcases hacc with rfl | ⟨h1, hlex⟩
        · exact .inl rfl
        · exact .inr ⟨h1, fun r hr => hlex r (List.mem_cons_of_mem p hr)⟩

/-! ## Lemmas: the vertex label list and `TSPbest` -/

theorem vertexIndices_two_mul (n : ℕ) :
    vertexIndices (2 * n) = (List.range n).map (fun i => i + 1) := by
  induction n with
  | zero => rfl
  | succ n ih =>
    have h2 : 2 * (n + 1) = 2 * n + 1 + 1 := by ring
    have e1 : 2 * n % 2 = 0 := Nat.mul_mod_right 2 n
    have e2 : (2 * n + 1) % 2 = 1 := by omega
    have e3 : 2 * n / 2 = n := by omega
    unfold vertexIndices at ih ⊢
    rw [h2, List.range_succ, List.range_succ, List.filter_append, List.filter_append,
      List.map_append, List.map_append, ih]
    simp [e1, e2, e3, List.range_succ]

theorem vertexList_pairwise (n : ℕ) :
    ((List.range n).map (fun i => i + 1)).Pairwise (· < ·) := by
  rw [List.pairwise_map]
  exact (List.pairwise_lt_range n).imp (by omega)

theorem mem_of_perm_vertexList {n : ℕ} {q : List ℕ}
    (hq : List.Perm q ((List.range n).map (fun i => i + 1)))
    {v : ℕ} (hv : v ∈ q) : 1 ≤ v ∧ v ≤ n := by
  have := hq.subset hv
  simp only [List.mem_map, List.mem_range] at this
  obtain ⟨i, hi, rfl⟩ := this
  omega

theorem map_pred_succ {q : List ℕ} (h : ∀ v ∈ q, 1 ≤ v) :
    (q.map (fun e => e - 1)).map (fun e => e + 1) = q := by
  rw [List.map_map]
  have : ∀ v ∈ q, (fun e => e + 1) ((fun e => e - 1) v) = v := by
    intro v hv
    have := h v hv
    simp only []
    omega
  calc q.map ((fun e => e + 1) ∘ (fun e => e - 1))
      = q.map (fun a => a) := List.map_congr_left this
    _ = q := List.map_id' q

theorem TSPbest_spec (n : ℕ) (coords : List R) (w : ℕ → ℕ → R)
    (hlen : coords.length = 2 * n) :
    List.Perm (TSPbest coords w) ((List.range n).map (fun i => i + 1)) ∧
    ∀ q, List.Perm q ((List.range n).map (fun i => i + 1)) →
      cycleCost w (TSPbest coords w) ≤ cycleCost w q := by
  have hvi : vertexIndices coords.length = (List.range n).map (fun i => i + 1) := by
    rw [hlen, vertexIndices_two_mul]
  have hbest : TSPbest coords w =
      (tspScan w (lexPerms ((List.range n).map (fun i => i + 1)))).2 := by
    unfold TSPbest
    rw [hvi]
  have hself : ((List.range n).map (fun i => i + 1)) ∈
      lexPerms ((List.range n).map (fun i => i + 1)) :=
    mem_lexPerms.mpr (List.Perm.refl _)
  rcases tspFold_attains w (lexPerms ((List.range n).map (fun i => i + 1))) (⊤, []) with h | h
  · exfalso
    have hle := (tspFold_fst_le w (lexPerms ((List.range n).map (fun i => i + 1)))
      (⊤, [])).2 _ hself
    rw [h] at hle
    exact WithTop.not_top_le_coe _ hle
  · constructor
    · rw [hbest]
      exact mem_lexPerms.mp h.1
    · intro q hq
      have hle := (tspFold_fst_le w (lexPerms ((List.range n).map (fun i => i + 1)))
        (⊤, [])).2 q (mem_lexPerms.mpr hq)
      rw [h.2] at hle
      rw [hbest]
      exact WithTop.coe_le_coe.mp hle

/-! ## Claim C1 -/

/-- C1: for every waypoint count `n ≥ 1` and every weight matrix, the
visiting order returned by `TSP` (read back in vertex labels `1..n`)
attains the minimum cycle cost
`w 0 v₁ + Σ w vₖ vₖ₊₁ + w vₙ 0` over all permutations `v` of the waypoint
vertices `1..n`: the full permutation space is enumerated and an exact
global optimum is returned. -/
theorem C1_tsp_exact_global_optimum (n : ℕ) (coords : List R) (w : ℕ → ℕ → R)
    (hn : 1 ≤ n) (hlen : coords.length = 2 * n) (q : List ℕ)
    (hq : List.Perm q ((List.range n).map (fun i => i + 1))) :
    cycleCost w ((TSP coords w).map (fun e => e + 1)) ≤ cycleCost w q := by
  obtain ⟨hperm, hmin⟩ := TSPbest_spec n coords w hlen
  have h1 : ∀ v ∈ TSPbest coords w, 1 ≤ v :=
    fun v hv => (mem_of_perm_vertexList hperm hv).1
  have hts : (TSP coords w).map (fun e => e + 1) = TSPbest coords w := by
    unfold TSP
    exact map_pred_succ h1
  rw [hts]
  exact hmin q hq

/-- Witness for C1 at `n = 1`, `coords = [0, 0]`, the zero weight matrix
and the permutation `[1]`. -/
theorem C1_tsp_exact_global_optimum_witness :
    cycleCost (fun _ _ => (0 : ℤ))
        ((TSP [(0 : ℤ), 0] (fun _ _ => 0)).map (fun e => e + 1)) ≤
      cycleCost (fun _ _ => (0 : ℤ)) [1] :=
  C1_tsp_exact_global_optimum 1 [(0 : ℤ), 0] (fun _ _ => 0)
    (by decide) (by decide) [1] (by decide)

/-! ## Claim C6 -/

/-- C6: whenever some permutation `q` of the vertex labels `1..n` ties the
cost of the kept minimum, the kept minimum (`best_indices` before the
final relabelling, i.e. `TSPbest`) is lexicographically no later than `q`
in the ordering `next_permutation` enumerates: a later permutation of
equal cost never replaces the already-kept minimum. -/
theorem C6_ties_broken_by_first_found (n : ℕ) (coords : List R) (w : ℕ → ℕ → R)
    (hlen : coords.length = 2 * n) (q : List ℕ)
    (hq : List.Perm q ((List.range n).map (fun i => i + 1)))
    (hcost : cycleCost w q = cycleCost w (TSPbest coords w)) :
    TSPbest coords w = q ∨ List.Lex (· < ·) (TSPbest coords w) q := by
  have hvi : vertexIndices coords.length = (List.range n).map (fun i => i + 1) := by
    rw [hlen, vertexIndices_two_mul]
  have hbest : TSPbest coords w =
      (tspScan w (lexPerms ((List.range n).map (fun i => i + 1)))).2 := by
    unfold TSPbest
    rw [hvi]
  have hself : ((List.range n).map (fun i => i + 1)) ∈
      lexPerms ((List.range n).map (fun i => i + 1)) :=
    mem_lexPerms.mpr (List.Perm.refl _)
  rcases tspFold_attains w (lexPerms ((List.range n).map (fun i => i + 1))) (⊤, []) with h | h
  · exfalso
    have hle := (tspFold_fst_le w (lexPerms ((List.range n).map (fun i => i + 1)))
      (⊤, [])).2 _ hself
    rw [h] at hle
    exact WithTop.not_top_le_coe _ hle
  · have hsorted := lexPerms_pairwise_lex (vertexList_pairwise n)
    have hcoe : ((cycleCost w q : R) : WithTop R) =
        (tspScan w (lexPerms ((List.range n).map (fun i => i + 1)))).1 := by
      rw [show (tspScan w (lexPerms ((List.range n).map (fun i => i + 1)))).1 =
            ((cycleCost w (tspScan w
              (lexPerms ((List.range n).map (fun i => i + 1)))).2 : R) : WithTop R) from h.2]
      rw [WithTop.coe_eq_coe, ← hbest]
      exact hcost
    have hmain := tspFold_first_min w (lexPerms ((List.range n).map (fun i => i + 1)))
      (⊤, []) hsorted (.inl rfl) q (mem_lexPerms.mpr hq) hcoe
    rw [hbest]
    exact hmain

/-- Witness for C6 at `n = 2`, `coords = [0, 0, 0, 0]`, the zero weight
matrix (both permutations tie) and the later permutation `[2, 1]`. -/
theorem C6_ties_broken_by_first_found_witness :
    TSPbest [(0 : ℤ), 0, 0, 0] (fun _ _ => 0) = [2, 1] ∨
      List.Lex (· < ·) (TSPbest [(0 : ℤ), 0, 0, 0] (fun _ _ => 0)) [2, 1] :=
  C6_ties_broken_by_first_found 2 [(0 : ℤ), 0, 0, 0] (fun _ _ => 0)
    (by decide) [2, 1] (by decide) (by decide)

/-! ## Claim C7 -/

/-- C7 counterexample: with `n = 1` waypoint, the route returned by `TSP`
is `[0]` — the final `std::transform` has subtracted 1 from every vertex
label — so it does not contain each of `1..1`: it is not a permutation of
the indices `1..n`. -/
theorem C7_counterexample :
    TSP [(0 : ℤ), 0] (fun _ _ => 0) = [0] ∧
      1 ∉ TSP [(0 : ℤ), 0] (fun _ _ => 0) := by
  decide

/-- C7 (amended): for every `n ≥ 1` and every weight matrix, the route
returned by `TSP` is a permutation of the 0-based waypoint indices
`0..n-1` (each contained exactly once and nothing else); the pre-transform
visiting order `TSPbest` is a permutation of the vertex labels `1..n`. -/
theorem C7_route_is_permutation (n : ℕ) (coords : List R) (w : ℕ → ℕ → R)
    (hn : 1 ≤ n) (hlen : coords.length = 2 * n) :
    List.Perm (TSP coords w) (List.range n) ∧
    List.Perm (TSPbest coords w) ((List.range n).map (fun i => i + 1)) := by
  obtain ⟨hperm, _⟩ := TSPbest_spec n coords w hlen
  refine ⟨?_, hperm⟩
  have hmapped := hperm.map (fun e => e - 1)
  have hmap : ((List.range n).map (fun i => i + 1)).map (fun e => e - 1) =
      List.range n := by
    rw [List.map_map]
    calc (List.range n).map ((fun e => e - 1) ∘ (fun i => i + 1))
        = (List.range n).map (fun a => a) :=
          List.map_congr_left (fun a _ => by simp)
      _ = List.range n := List.map_id' _
  rw [hmap] at hmapped
  exact hmapped

/-- Witness for the amended C7 at `n = 1`, `coords = [0, 0]` and the zero
weight matrix. -/
theorem C7_route_is_permutation_witness :
    List.Perm (TSP [(0 : ℤ), 0] (fun _ _ => 0)) (List.range 1) ∧
    List.Perm (TSPbest [(0 : ℤ), 0] (fun _ _ => 0))
      ((List.range 1).map (fun i => i + 1)) :=
  C7_route_is_permutation 1 [(0 : ℤ), 0] (fun _ _ => 0) (by decide) (by decide)

/-! ## Lemmas: the weight matrix invariant -/

theorem mem_evensFrom {len start j : ℕ} :
    j ∈ evensFrom len start ↔ j < len ∧ start ≤ j ∧ j % 2 = 0 := by
  simp only [evensFrom, List.mem_filter, List.mem_range, Bool.and_eq_true,
    decide_eq_true_eq, beq_iff_eq]

theorem foldl_preserves_mem {α β : Type} {P : β → Prop} {f : β → α → β} :
    ∀ (xs : List α), (∀ m x, x ∈ xs → P m → P (f m x)) →
      ∀ b, P b → P (xs.foldl f b) := by
  intro xs
  induction xs with
  | nil =>
    intro _ b hb
    exact hb
  | cons x xs ih =>
    intro hf b hb
    exact ih (fun c y hy => hf c y (List.mem_cons_of_mem x hy))
      (f b x) (hf b x (List.mem_cons_self x xs) hb)

theorem wInv_pairWrite {m : ℕ → ℕ → R} {a b : ℕ} {x : R} (hab : a ≠ b)
    (hm : WInv m) (hx : 0 ≤ x) : WInv (wupd (wupd m a b x) b a x) := by
  obtain ⟨hs, hd, hn⟩ := hm
  refine ⟨?_, ?_, ?_⟩
  · intro i j
    simp only [wupd]
    split_ifs <;> first | rfl | exact hs i j | tauto
  · intro i
    simp only [wupd]
    split_ifs <;> first | exact hd i | omega
  · intro i j
    simp only [wupd]
    split_ifs <;> first | exact hx | exact hn i j

theorem wInv_diagWrite {m : ℕ → ℕ → R} {a : ℕ}
    (hm : WInv m) : WInv (wupd m a a 0) := by
  obtain ⟨hs, hd, hn⟩ := hm
  refine ⟨?_, ?_, ?_⟩
  · intro i j
    simp only [wupd]
    split_ifs <;> first | rfl | exact hs i j | tauto
  · intro i
    simp only [wupd]
    split_ifs <;> first | rfl | exact hd i
  · intro i j
    simp only [wupd]
    split_ifs <;> first | exact le_refl 0 | exact hn i j

theorem calculateWeights_wInv (range : R → R → R → R → R) (alat alon : R)
    (coords : List R) (hnonneg : ∀ a b c d, 0 ≤ range a b c d) :
    WInv (calculateWeights range alat alon coords) := by
  unfold calculateWeights
  refine foldl_preserves_mem _ ?_ _ ⟨fun _ _ => rfl, fun _ => rfl, fun _ _ => le_refl 0⟩
  intro m i hi hm
  have hie : i % 2 = 0 := (mem_evensFrom.mp hi).2.2
  refine foldl_preserves_mem _ ?_ _ ?_
  · intro m1 j hj hm1
    have hje : j % 2 = 0 := (mem_evensFrom.mp hj).2.2
    split_ifs with hij
    · subst hij
      exact wInv_diagWrite hm1
    · refine wInv_pairWrite ?_ hm1 (hnonneg _ _ _ _)
      omega
  · exact wInv_pairWrite (by omega) hm (hnonneg _ _ _ _)

/-! ## Claim C3 -/

/-- C3: for every even-length coordinate list defining `n` waypoints and
any depot position, assuming the external geodesic range is symmetric,
zero on equal points and non-negative, the `(n+1)×(n+1)` matrix returned
by `calculateWeights` is symmetric, has a zero diagonal, and has all
entries non-negative.  (The proof uses only non-negativity: the builder
writes each symmetric pair of entries from a single range evaluation and
writes the diagonal as the literal 0.) -/
theorem C3_weight_matrix_invariants (n : ℕ) (range : R → R → R → R → R)
    (alat alon : R) (coords : List R) (hlen : coords.length = 2 * n)
    (hsymm : ∀ a b c d, range a b c d = range c d a b)
    (hself : ∀ a b, range a b a b = 0)
    (hnonneg : ∀ a b c d, 0 ≤ range a b c d)
    (i j : ℕ) (hi : i ≤ n) (hj : j ≤ n) :
    calculateWeights range alat alon coords i j =
        calculateWeights range alat alon coords j i ∧
      calculateWeights range alat alon coords i i = 0 ∧
      0 ≤ calculateWeights range alat alon coords i j := by
  obtain ⟨hs, hd, hn⟩ := calculateWeights_wInv range alat alon coords hnonneg
  exact ⟨hs i j, hd i, hn i j⟩

/-- Witness for C3 at `n = 1`, `coords = [0, 0]`, the zero range function
and the entry `(0, 1)`. -/
theorem C3_weight_matrix_invariants_witness :
    calculateWeights (fun _ _ _ _ => (0 : ℤ)) 0 0 [0, 0] 0 1 =
        calculateWeights (fun _ _ _ _ => (0 : ℤ)) 0 0 [0, 0] 1 0 ∧
      calculateWeights (fun _ _ _ _ => (0 : ℤ)) 0 0 [0, 0] 0 0 = 0 ∧
      0 ≤ calculateWeights (fun _ _ _ _ => (0 : ℤ)) 0 0 [0, 0] 0 1 :=
  C3_weight_matrix_invariants 1 (fun _ _ _ _ => 0) 0 0 [0, 0] (by decide)
    (fun _ _ _ _ => rfl) (fun _ _ => rfl) (fun _ _ _ _ => le_refl 0)
    0 1 (by decide) (by decide)

/-! ## Claim C10 -/

/-- C10 counterexample: with one waypoint at the same location names and a
constant geodesic range of 1, the part_000 matrix has the depot range 1 at
entry `(0, 1)`, while the Task.cpp variant leaves entry `(0, 1)` at its
initial 0 — it wrote the depot range to `(0, 0)` and then zeroed it — so
the two matrices are not equal entry for entry. -/
theorem C10_counterexample :
    calculateWeights (fun _ _ _ _ => (1 : ℤ)) 0 0 [0, 0] 0 1 = 1 ∧
      calculateWeightsCpp (fun _ _ _ _ => (1 : ℤ)) 0 0 [0, 0] (fun _ _ => 0) 0 1 = 0 := by
  decide

/-- C10 (amended): the two builders agree entry for entry in the
degenerate case of an empty coordinate list (`n = 0`); for `n ≥ 1` they
differ, as the counterexample shows. -/
theorem C10_builders_agree_only_on_empty (range : R → R → R → R → R)
    (alat alon : R) (i j : ℕ) :
    calculateWeightsCpp range alat alon ([] : List R) (fun _ _ => 0) i j =
      calculateWeights range alat alon ([] : List R) i j :=
  rfl

/-! ## Lemmas: maneuver identifiers are pairwise distinct

`createPlan` names its maneuvers `Goto0`, `Goto1`, …; for the linear-chain
claim the decimal rendering of the index must be injective. -/

theorem toDigitsCore_eq_digits :
    ∀ (n fuel : ℕ) (ds : List Char), n < fuel →
      Nat.toDigitsCore 10 fuel n ds =
        (if n = 0 then ['0']
         else ((Nat.digits 10 n).map Nat.digitChar).reverse) ++ ds := by
  intro n
  induction n using Nat.strong_induction_on with
  | _ n ih =>
    intro fuel ds hfuel
    cases fuel with
    | zero => omega
    | succ fuel =>
      simp only [Nat.toDigitsCore]
      by_cases h0 : n / 10 = 0
      · rw [if_pos h0]
        by_cases hn : n = 0
        · subst hn
          rw [if_pos rfl]
          rfl
        · rw [if_neg hn]
          have hlt : n < 10 := by omega
          rw [Nat.digits_def' (by norm_num : (1:ℕ) < 10) (by omega : 0 < n), h0]
          simp
      · rw [if_neg h0]
        have hdivlt : n / 10 < n := Nat.div_lt_self (by omega) (by norm_num)
        have hdivfuel : n / 10 < fuel := by omega
        rw [ih (n / 10) hdivlt fuel _ hdivfuel]
        rw [if_neg h0]
        have hn : n ≠ 0 := by omega
        rw [if_neg hn]
        rw [Nat.digits_def' (by norm_num : (1:ℕ) < 10) (by omega : 0 < n)]
        simp

theorem digitChar_inj_lt :
    ∀ a < 10, ∀ b < 10, Nat.digitChar a = Nat.digitChar b → a = b := by
  decide

theorem map_digitChar_inj :
    ∀ (l1 l2 : List ℕ), (∀ x ∈ l1, x < 10) → (∀ x ∈ l2, x < 10) →
      l1.map Nat.digitChar = l2.map Nat.digitChar → l1 = l2 := by
  intro l1
  induction l1 with
  | nil =>
    intro l2 _ _ h
    cases l2 with
    | nil => rfl
    | cons y ys => simp at h
  | cons x xs ih =>
    intro l2 h1 h2 h
    cases l2 with
    | nil => simp at h
    | cons y ys =>
      simp only [List.map_cons, List.cons.injEq] at h
      have hx := digitChar_inj_lt x (h1 x (List.mem_cons_self x xs))
        y (h2 y (List.mem_cons_self y ys)) h.1
      rw [hx, ih ys (fun z hz => h1 z (List.mem_cons_of_mem x hz))
        (fun z hz => h2 z (List.mem_cons_of_mem y hz)) h.2]

theorem nat_repr_injective : Function.Injective Nat.repr := by
  intro m n h
  have hdata : Nat.toDigits 10 m = Nat.toDigits 10 n := by
    have := congrArg String.data h
    simpa [Nat.repr, List.asString] using this
  rw [Nat.toDigits, Nat.toDigits, toDigitsCore_eq_digits m (m + 1) [] (by omega),
    toDigitsCore_eq_digits n (n + 1) [] (by omega),
    List.append_nil, List.append_nil] at hdata
  have digits_of_single_zero : ∀ k : ℕ,
      (Nat.digits 10 k).map Nat.digitChar = ['0'] → k = 0 := by
    intro k hk
    have hd : Nat.digits 10 k = [0] :=
      map_digitChar_inj _ [0]
        (fun x hx => Nat.digits_lt_base (by norm_num) hx)
        (by simp) (by simpa using hk)
    have hof := Nat.ofDigits_digits 10 k
    rw [hd] at hof
    simpa [Nat.ofDigits] using hof.symm
  by_cases hm : m = 0 <;> by_cases hn : n = 0
  · rw [hm, hn]
  · rw [if_pos hm, if_neg hn] at hdata
    have : (Nat.digits 10 n).map Nat.digitChar = ['0'] := by
      have := congrArg List.reverse hdata
      simpa using this.symm
    exact absurd (digits_of_single_zero n this) hn
  · rw [if_neg hm, if_pos hn] at hdata
    have : (Nat.digits 10 m).map Nat.digitChar = ['0'] := by
      have := congrArg List.reverse hdata
      simpa using this
    exact absurd (digits_of_single_zero m this) hm
  · rw [if_neg hm, if_neg hn] at hdata
    have hmaps : (Nat.digits 10 m).map Nat.digitChar =
        (Nat.digits 10 n).map Nat.digitChar := by
      have := congrArg List.reverse hdata
      simpa using this
    have hd := map_digitChar_inj _ _
      (fun x hx => Nat.digits_lt_base (by norm_num) hx)
      (fun x hx => Nat.digits_lt_base (by norm_num) hx) hmaps
    have h1 := Nat.ofDigits_digits 10 m
    have h2 := Nat.ofDigits_digits 10 n
    rw [← h1, ← h2, hd]

theorem gotoName_injective : Function.Injective gotoName := by
  intro a b h
  apply nat_repr_injective
  apply String.ext
  have := congrArg String.data h
  simp only [gotoName, String.data_append] at this
  exact List.append_cancel_left this

/-! ## Lemmas: the structure of the assembled plan -/

theorem foldl_range_succ {β : Type} (f : β → ℕ → β) (b : β) (n : ℕ) :
    (List.range (n + 1)).foldl f b = f ((List.range n).foldl f b) n := by
  rw [List.range_succ, List.foldl_append]
  rfl

theorem planStep_foldl_spec (coords : List R) (indices : List ℕ)
    (P : PlanSpecification R) :
    ∀ m, (List.range m).foldl (planStep coords indices) P =
      { plan_id := P.plan_id
        description := P.description
        start_man_id := if m = 0 then P.start_man_id else gotoName 0
        maneuvers := P.maneuvers ++ (List.range m).map (fun i =>
          ⟨gotoName i, ⟨coords.getD (indices.getD i 0 * 2) 0,
            coords.getD (indices.getD i 0 * 2 + 1) 0, 8 / 5, 0⟩⟩)
        transitions := P.transitions ++
          ((List.range m).filter (fun i => i != 0)).map
            (fun i => ⟨gotoName (i - 1), gotoName i, "ManeuverIsDone"⟩) } := by
  intro m
  induction m with
  | zero => simp
  | succ m ih =>
    rw [foldl_range_succ, ih]
    unfold planStep
    by_cases hm : m = 0
    · subst hm
      simp [List.range_succ]
    · rw [if_neg hm]
      simp [List.range_succ, List.filter_append, hm, List.append_assoc]

/-- Closed form of `createPlan`: the route loop's output followed by the
closing depot maneuver and its (unconditionally appended) transition. -/
theorem createPlan_spec (coords : List R) (alat alon : R) (indices : List ℕ)
    (P : PlanSpecification R) :
    createPlan coords alat alon indices P =
      { plan_id := P.plan_id
        description := P.description
        start_man_id := if indices.length = 0 then P.start_man_id else gotoName 0
        maneuvers := (P.maneuvers ++ (List.range indices.length).map (fun i =>
            ⟨gotoName i, ⟨coords.getD (indices.getD i 0 * 2) 0,
              coords.getD (indices.getD i 0 * 2 + 1) 0, 8 / 5, 0⟩⟩)) ++
          [⟨gotoName indices.length, ⟨alat, alon, 8 / 5, 0⟩⟩]
        transitions := (P.transitions ++
            ((List.range indices.length).filter (fun i => i != 0)).map
              (fun i => ⟨gotoName (i - 1), gotoName i, "ManeuverIsDone"⟩)) ++
          [⟨gotoName (usizeSub1 indices.length), gotoName indices.length,
            "ManeuverIsDone"⟩] } := by
  unfold createPlan planBody
  rw [planStep_foldl_spec]

theorem chain_filter_map {α : Type} (f : ℕ → ℕ → α) :
    ∀ n, 1 ≤ n →
      ((List.range n).filter (fun i => i != 0)).map (fun i => f (i - 1) i) ++
          [f (n - 1) n] =
        (List.range n).map (fun k => f k (k + 1)) := by
  intro n
  induction n with
  | zero => omega
  | succ n ih =>
    intro _
    by_cases hn : n = 0
    · subst hn
      simp [List.range_succ]
    · rw [List.range_succ, List.filter_append, List.map_append, List.map_append,
        ← ih (by omega)]
      have hfil : (List.filter (fun i => i != 0) [n]).map (fun i => f (i - 1) i) =
          [f (n - 1) n] := by
        simp [hn]
      rw [hfil]
      simp

theorem usizeSub1_of_pos {n : ℕ} (h1 : 1 ≤ n) (h2 : n ≤ 2 ^ 64) :
    usizeSub1 n = n - 1 := by
  unfold usizeSub1
  have : n + (2 ^ 64 - 1) = (n - 1) + 1 * 2 ^ 64 := by omega
  rw [this, Nat.add_mul_mod_self_right]
  omega

/-! ## Claim C2 -/

/-- C2 counterexample: for the empty route (`n = 0`, reachable since an
empty coordinate list is accepted as valid), `createPlan` still appends
the closing depot maneuver and, unconditionally, its incoming transition:
the resulting plan has 1 directive but also 1 transition (the claim
requires 0), and that transition's source id `Goto18446744073709551615`
(from the wrapped `size_t` subtraction `indices.size() - 1`) matches no
maneuver of the plan — a dangling reference. -/
theorem C2_counterexample :
    (createPlan ([] : List ℤ) 0 0 []
        ⟨"PlanVisit", "d", "", [], []⟩).maneuvers.length = 1 ∧
    (createPlan ([] : List ℤ) 0 0 []
        ⟨"PlanVisit", "d", "", [], []⟩).transitions.length = 1 ∧
    ∀ t ∈ (createPlan ([] : List ℤ) 0 0 []
        ⟨"PlanVisit", "d", "", [], []⟩).transitions,
      ∀ pm ∈ (createPlan ([] : List ℤ) 0 0 []
        ⟨"PlanVisit", "d", "", [], []⟩).maneuvers,
        t.source_man ≠ pm.maneuver_id := by
  decide

/-- C2 (amended): for every route of length `n ≥ 1` with `n` within
`size_t` range, the plan assembled by `createPlan` from an empty plan
contains exactly `n + 1` maneuvers and exactly `n` transitions; the `k`-th
transition is gated on completion of maneuver `Goto k` and leads to
maneuver `Goto (k+1)`, so the transitions form one linear chain from the
first directive (which is the plan's start reference) to the last; the
maneuver identifiers are `Goto 0 … Goto n` in order and pairwise distinct
(no dangling or duplicate references); and the final directive targets the
vehicle's current position.  For `n = 0` the claim fails (see the
counterexample): the plan has one directive and one dangling transition. -/
theorem C2_plan_is_linear_chain (coords : List R) (alat alon : R)
    (indices : List ℕ) (P : PlanSpecification R)
    (hman : P.maneuvers = []) (htrans : P.transitions = [])
    (h1 : 1 ≤ indices.length) (h64 : indices.length ≤ 2 ^ 64) :
    (createPlan coords alat alon indices P).maneuvers.length =
        indices.length + 1 ∧
    (createPlan coords alat alon indices P).transitions.length =
        indices.length ∧
    (createPlan coords alat alon indices P).transitions =
      (List.range indices.length).map
        (fun k => ⟨gotoName k, gotoName (k + 1), "ManeuverIsDone"⟩) ∧
    (createPlan coords alat alon indices P).maneuvers.map
        PlanManeuver.maneuver_id =
      (List.range (indices.length + 1)).map gotoName ∧
    ((createPlan coords alat alon indices P).maneuvers.map
        PlanManeuver.maneuver_id).Nodup ∧
    (createPlan coords alat alon indices P).start_man_id = gotoName 0 ∧
    (createPlan coords alat alon indices P).maneuvers.getLast? =
      some ⟨gotoName indices.length, ⟨alat, alon, 8 / 5, 0⟩⟩ := by
  rw [createPlan_spec, hman, htrans]
  dsimp only
  rw [usizeSub1_of_pos h1 h64, List.nil_append, List.nil_append]
  have htr : ((List.range indices.length).filter (fun i => i != 0)).map
        (fun i => (⟨gotoName (i - 1), gotoName i, "ManeuverIsDone"⟩ : PlanTransition)) ++
      [⟨gotoName (indices.length - 1), gotoName indices.length, "ManeuverIsDone"⟩] =
      (List.range indices.length).map
        (fun k => (⟨gotoName k, gotoName (k + 1), "ManeuverIsDone"⟩ : PlanTransition)) :=
    @chain_filter_map PlanTransition
      (fun a b => ⟨gotoName a, gotoName b, "ManeuverIsDone"⟩) indices.length h1
  have hids : ((List.range indices.length).map (fun i =>
      (⟨gotoName i, ⟨coords.getD (indices.getD i 0 * 2) 0,
        coords.getD (indices.getD i 0 * 2 + 1) 0, 8 / 5, 0⟩⟩ :
          PlanManeuver R)) ++
      [(⟨gotoName indices.length, ⟨alat, alon, 8 / 5, 0⟩⟩ : PlanManeuver R)]).map
        PlanManeuver.maneuver_id =
      (List.range (indices.length + 1)).map gotoName := by
    rw [List.map_append, List.map_map,
      show List.range (indices.length + 1) =
        List.range indices.length ++ [indices.length] from
          List.range_succ indices.length,
      List.map_append]
    simp [Function.comp]
  refine ⟨by simp, ?_, htr, hids, ?_, ?_, by simp⟩
  · rw [htr]
    simp
  · rw [hids]
    exact (List.nodup_range _).map gotoName_injective
  · rw [if_neg (by omega)]

/-- Witness for the amended C2 at a one-entry route. -/
theorem C2_plan_is_linear_chain_witness :
    (createPlan ([(5 : ℤ), 6] : List ℤ) 1 2 [0]
        ⟨"PlanVisit", "d", "", [], []⟩).maneuvers.length = 2 ∧
    (createPlan ([(5 : ℤ), 6] : List ℤ) 1 2 [0]
        ⟨"PlanVisit", "d", "", [], []⟩).transitions.length = 1 ∧
    (createPlan ([(5 : ℤ), 6] : List ℤ) 1 2 [0]
        ⟨"PlanVisit", "d", "", [], []⟩).transitions =
      (List.range 1).map
        (fun k => ⟨gotoName k, gotoName (k + 1), "ManeuverIsDone"⟩) ∧
    (createPlan ([(5 : ℤ), 6] : List ℤ) 1 2 [0]
        ⟨"PlanVisit", "d", "", [], []⟩).maneuvers.map
        PlanManeuver.maneuver_id = (List.range 2).map gotoName ∧
    ((createPlan ([(5 : ℤ), 6] : List ℤ) 1 2 [0]
        ⟨"PlanVisit", "d", "", [], []⟩).maneuvers.map
        PlanManeuver.maneuver_id).Nodup ∧
    (createPlan ([(5 : ℤ), 6] : List ℤ) 1 2 [0]
        ⟨"PlanVisit", "d", "", [], []⟩).start_man_id = gotoName 0 ∧
    (createPlan ([(5 : ℤ), 6] : List ℤ) 1 2 [0]
        ⟨"PlanVisit", "d", "", [], []⟩).maneuvers.getLast? =
      some ⟨gotoName 1, ⟨1, 2, 8 / 5, 0⟩⟩ :=
  C2_plan_is_linear_chain [(5 : ℤ), 6] 1 2 [0] ⟨"PlanVisit", "d", "", [], []⟩
    rfl rfl (by decide) (by norm_num)

/-! ## Claim C9 -/

/-- C9 counterexample: a call with the empty route on a plan specification
already holding two transitions leaves three, not 2 + 0: the transition
count does not increase by the route length when the route is empty (the
closing transition is appended unconditionally). -/
theorem C9_counterexample :
    (createPlan ([] : List ℤ) 0 0 []
        ⟨"PlanVisit", "d", "s", [],
          [⟨"a", "b", "c"⟩, ⟨"d", "e", "f"⟩]⟩).transitions.length = 3 := by
  decide

/-- C9 (amended): `createPlan` appends to the stored plan specification
without clearing it — `plan_id` and `description` are unchanged and the
previous maneuver and transition lists are prefixes of the new ones — and
for a route of length `n ≥ 1` it adds exactly `n + 1` maneuvers and
exactly `n` transitions (an empty route adds one maneuver and one
transition instead).  Consequently, over `k` calls the plan accumulates
the maneuvers and transitions of all `k` calls. -/
theorem C9_createPlan_appends (coords : List R) (alat alon : R)
    (indices : List ℕ) (P : PlanSpecification R) (h1 : 1 ≤ indices.length) :
    (createPlan coords alat alon indices P).plan_id = P.plan_id ∧
    (createPlan coords alat alon indices P).description = P.description ∧
    (∃ newMans, (createPlan coords alat alon indices P).maneuvers =
        P.maneuvers ++ newMans ∧ newMans.length = indices.length + 1) ∧
    (∃ newTrans, (createPlan coords alat alon indices P).transitions =
        P.transitions ++ newTrans ∧ newTrans.length = indices.length) := by
  have hlen := congrArg List.length
    (@chain_filter_map (ℕ × ℕ) (fun a b => (a, b)) indices.length h1)
  simp only [List.length_append, List.length_map, List.length_cons,
    List.length_nil, List.length_range] at hlen
  rw [createPlan_spec]
  refine ⟨rfl, rfl, ⟨_, List.append_assoc _ _ _, by simp⟩,
    ⟨_, List.append_assoc _ _ _, ?_⟩⟩
  simp only [List.length_append, List.length_map, List.length_cons,
    List.length_nil]
  omega

/-- Witness for the amended C9 at a one-entry route over a plan that
already holds one maneuver and one transition. -/
theorem C9_createPlan_appends_witness :
    (createPlan ([] : List ℤ) 0 0 [0]
        ⟨"p", "d", "s", [⟨"m", ⟨7, 8, 8 / 5, 0⟩⟩], [⟨"x", "y", "z"⟩]⟩).plan_id =
        (⟨"p", "d", "s", [⟨"m", ⟨(7 : ℤ), 8, 8 / 5, 0⟩⟩],
          [⟨"x", "y", "z"⟩]⟩ : PlanSpecification ℤ).plan_id ∧
    (createPlan ([] : List ℤ) 0 0 [0]
        ⟨"p", "d", "s", [⟨"m", ⟨7, 8, 8 / 5, 0⟩⟩], [⟨"x", "y", "z"⟩]⟩).description =
        (⟨"p", "d", "s", [⟨"m", ⟨(7 : ℤ), 8, 8 / 5, 0⟩⟩],
          [⟨"x", "y", "z"⟩]⟩ : PlanSpecification ℤ).description ∧
    (∃ newMans, (createPlan ([] : List ℤ) 0 0 [0]
        ⟨"p", "d", "s", [⟨"m", ⟨7, 8, 8 / 5, 0⟩⟩], [⟨"x", "y", "z"⟩]⟩).maneuvers =
        (⟨"p", "d", "s", [⟨"m", ⟨(7 : ℤ), 8, 8 / 5, 0⟩⟩],
          [⟨"x", "y", "z"⟩]⟩ : PlanSpecification ℤ).maneuvers ++ newMans ∧
        newMans.length = 2) ∧
    (∃ newTrans, (createPlan ([] : List ℤ) 0 0 [0]
        ⟨"p", "d", "s", [⟨"m", ⟨7, 8, 8 / 5, 0⟩⟩], [⟨"x", "y", "z"⟩]⟩).transitions =
        (⟨"p", "d", "s", [⟨"m", ⟨(7 : ℤ), 8, 8 / 5, 0⟩⟩],
          [⟨"x", "y", "z"⟩]⟩ : PlanSpecification ℤ).transitions ++ newTrans ∧
        newTrans.length = 1) :=
  C9_createPlan_appends [] 0 0 [0]
    ⟨"p", "d", "s", [⟨"m", ⟨7, 8, 8 / 5, 0⟩⟩], [⟨"x", "y", "z"⟩]⟩ (by decide)

/-! ## Claim C8 -/

/-- C8: assuming the stored coordinate list has even length `2n`, every
coordinate index read by `calculateWeights` is below `2n` and every matrix
row/column index it touches is below `n + 1` (the matrix dimension), and
for route entries below `n` every coordinate index read by `createPlan` is
below `2n`: all the subscripts of these two functions stay in bounds, so
the out-of-bounds branch of each indexing operation is unreachable. -/
theorem C8_accesses_in_bounds (n len : ℕ) (hlen : len = 2 * n)
    (indices : List ℕ) (hidx : ∀ v ∈ indices, v < n) :
    (∀ a ∈ weightsCoordAccesses len, a < len) ∧
    (∀ pq ∈ weightsMatrixAccesses len, pq.1 < n + 1 ∧ pq.2 < n + 1) ∧
    (∀ a ∈ planCoordAccesses indices, a < len) := by
  subst hlen
  refine ⟨?_, ?_, ?_⟩
  · intro a ha
    simp only [weightsCoordAccesses, List.mem_flatMap] at ha
    obtain ⟨i, hi, hmem⟩ := ha
    obtain ⟨hilt, -, hie⟩ := mem_evensFrom.mp hi
    rcases List.mem_append.mp hmem with h2 | h2
    · simp only [List.mem_cons, List.not_mem_nil, or_false] at h2
      omega
    · obtain ⟨j, hj, hmem2⟩ := List.mem_flatMap.mp h2
      obtain ⟨hjlt, hji, hje⟩ := mem_evensFrom.mp hj
      by_cases hij : i = j
      · rw [if_pos hij] at hmem2
        simp at hmem2
      · rw [if_neg hij] at hmem2
        simp only [List.mem_cons, List.not_mem_nil, or_false] at hmem2
        omega
  · intro pq hpq
    simp only [weightsMatrixAccesses, List.mem_flatMap] at hpq
    obtain ⟨i, hi, hmem⟩ := hpq
    obtain ⟨hilt, -, hie⟩ := mem_evensFrom.mp hi
    rcases List.mem_append.mp hmem with h2 | h2
    · simp only [List.mem_cons, List.not_mem_nil, or_false] at h2
      rcases h2 with rfl | rfl
      · constructor <;> simp <;> omega
      · constructor <;> simp <;> omega
    · obtain ⟨j, hj, hmem2⟩ := List.mem_flatMap.mp h2
      obtain ⟨hjlt, hji, hje⟩ := mem_evensFrom.mp hj
      by_cases hij : i = j
      · rw [if_pos hij] at hmem2
        simp only [List.mem_cons, List.not_mem_nil, or_false] at hmem2
        subst hmem2
        constructor <;> simp <;> omega
      · rw [if_neg hij] at hmem2
        simp only [List.mem_cons, List.not_mem_nil, or_false] at hmem2
        rcases hmem2 with rfl | rfl
        · constructor <;> simp <;> omega
        · constructor <;> simp <;> omega
  · intro a ha
    simp only [planCoordAccesses, List.mem_flatMap] at ha
    obtain ⟨v, hv, hmem⟩ := ha
    have := hidx v hv
    simp only [List.mem_cons, List.not_mem_nil, or_false] at hmem
    omega

/-- Witness for C8 at `n = 1`, `len = 2`, route `[0]`. -/
theorem C8_accesses_in_bounds_witness :
    (∀ a ∈ weightsCoordAccesses 2, a < 2) ∧
    (∀ pq ∈ weightsMatrixAccesses 2, pq.1 < 1 + 1 ∧ pq.2 < 1 + 1) ∧
    (∀ a ∈ planCoordAccesses [0], a < 2) :=
  C8_accesses_in_bounds 1 2 (by decide) [0] (by decide)

/-! ## Claim C4 -/

/-- C4 fails on the code: after a valid (even) configuration, activation
and a `VS_SERVICE` vehicle-state update, a reconfiguration with the
odd-length list `[0]` marks the capability invalid (`m_PTV_ok = false`,
and no matrix has been built up to that point) — but the task stays
active (`onUpdateParameters` only logs "Task is deactivated." without
deactivating, and `onMain` never checks `m_PTV_ok`), so the very next
`onMain` iteration builds the weight matrix from the odd list and
dispatches a plan. -/
theorem C4_odd_list_still_plans :
    ((run (fun _ _ _ _ => (1 : ℤ)) (fun x => x) initState
        [.updateParameters [0, 0], .activate, .vehicleState 0,
         .updateParameters [0]]).ptv_ok = false) ∧
    ((run (fun _ _ _ _ => (1 : ℤ)) (fun x => x) initState
        [.updateParameters [0, 0], .activate, .vehicleState 0,
         .updateParameters [0]]).matrices_built = 0) ∧
    ((run (fun _ _ _ _ => (1 : ℤ)) (fun x => x) initState
        [.updateParameters [0, 0], .activate, .vehicleState 0,
         .updateParameters [0]]).points_to_visit.length % 2 = 1) ∧
    ((run (fun _ _ _ _ => (1 : ℤ)) (fun x => x) initState
        [.updateParameters [0, 0], .activate, .vehicleState 0,
         .updateParameters [0], .tick]).matrices_built = 1) ∧
    ((run (fun _ _ _ _ => (1 : ℤ)) (fun x => x) initState
        [.updateParameters [0, 0], .activate, .vehicleState 0,
         .updateParameters [0], .tick]).plans_dispatched = 1) := by
  decide

/-! ## Claim C5 -/

/-- C5 counterexample: after the first plan is dispatched, an explicit
deactivation followed by an explicit re-activation (the task is active
again) and a further `onMain` iteration in `VS_SERVICE` produces no new
plan — the dispatched count stays 1 — because `m_plan_sent` is never
reset, refuting "a new plan is produced exactly when an explicit
re-activation occurs". -/
theorem C5_counterexample :
    ((run (fun _ _ _ _ => (1 : ℤ)) (fun x => x) initState
        [.updateParameters [0, 0], .activate, .vehicleState 0, .tick,
         .deactivate, .activate]).active = true) ∧
    ((run (fun _ _ _ _ => (1 : ℤ)) (fun x => x) initState
        [.updateParameters [0, 0], .activate, .vehicleState 0, .tick,
         .deactivate, .activate]).plans_dispatched = 1) ∧
    ((run (fun _ _ _ _ => (1 : ℤ)) (fun x => x) initState
        [.updateParameters [0, 0], .activate, .vehicleState 0, .tick,
         .deactivate, .activate, .tick]).plans_dispatched = 1) := by
  decide

/-- C5 (amended): once a plan has been sent, the `m_plan_sent` flag blocks
any further matrix computation, solving, assembly or dispatch, and no
event of the task — parameter update, activation, deactivation, bus
message or `onMain` iteration — ever resets it: planning happens at most
once for the lifetime of the task, and even an explicit re-activation does
not produce a new plan. -/
theorem C5_planning_at_most_once (range : R → R → R → R → R) (rad : R → R)
    (s : TaskState R) (es : List (Event R)) (h : s.plan_sent = true) :
    (run range rad s es).plan_sent = true ∧
    (run range rad s es).plans_dispatched = s.plans_dispatched ∧
    (run range rad s es).matrices_built = s.matrices_built := by
  induction es generalizing s with
  | nil => exact ⟨h, rfl, rfl⟩
  | cons e es ih =>
    have hrun : run range rad s (e :: es) =
        run range rad (step range rad s e) es := rfl
    have hstep : (step range rad s e).plan_sent = true ∧
        (step range rad s e).plans_dispatched = s.plans_dispatched ∧
        (step range rad s e).matrices_built = s.matrices_built := by
      cases e <;> simp [step, stepActivate, h] <;> split_ifs <;> simp_all
    obtain ⟨h1, h2, h3⟩ := hstep
    obtain ⟨g1, g2, g3⟩ := ih (step range rad s e) h1
    rw [hrun]
    exact ⟨g1, by rw [g2, h2], by rw [g3, h3]⟩

/-- Witness for the amended C5: from a plan-sent state, re-activation and
a further tick dispatch nothing. -/
theorem C5_planning_at_most_once_witness :
    (run (fun _ _ _ _ => (1 : ℤ)) (fun x => x)
        { (initState : TaskState ℤ) with plan_sent := true }
        [.activate, .tick]).plan_sent = true ∧
    (run (fun _ _ _ _ => (1 : ℤ)) (fun x => x)
        { (initState : TaskState ℤ) with plan_sent := true }
        [.activate, .tick]).plans_dispatched =
      ({ (initState : TaskState ℤ) with plan_sent := true }).plans_dispatched ∧
    (run (fun _ _ _ _ => (1 : ℤ)) (fun x => x)
        { (initState : TaskState ℤ) with plan_sent := true }
        [.activate, .tick]).matrices_built =
      ({ (initState : TaskState ℤ) with plan_sent := true }).matrices_built :=
  C5_planning_at_most_once (fun _ _ _ _ => (1 : ℤ)) (fun x => x)
    { (initState : TaskState ℤ) with plan_sent := true }
    [.activate, .tick] rfl

end PlanVisit
